import Mathlib

/-!
Shallow embedding of the `velocity` HTTP router (Go) core:
the path lexer and validator, the compressed trie (insert / find /
captureRoutes), middleware composition (`chainMws`), and the router
surface (`Router`, `Group`, `Get`, `route.Handle`, `getTree`).

Conventions of the embedding:
* Go strings are modelled as `List Char` (all inputs in the claims are
  ASCII, so Go's byte indexing coincides with character indexing).
* Go code that can panic (an out-of-range index such as `s[0]` on an
  empty string, or `params[i]` past the end of the slice) is modelled
  with `Option` / an explicit `panic` constructor: `none` marks the
  abnormal termination.
* `map[byte]*node` is modelled as an association list updated in place
  (`chPut`); Go map lookup order never matters for the modelled code.
* Handlers are a type parameter `H`; where traces of middleware
  execution are observed, `H` is instantiated with `PMap → List Ev`.
-/

namespace Velocity

/-- Go strings, as lists of characters (ASCII ⇒ bytes = chars). -/
abbrev Str := List Char

/-- `strings.TrimPrefix(p, "/")`: drop one leading slash if present. -/
def trimLeadSlash : Str → Str
  | '/' :: rest => rest
  | s => s

/-- `strings.TrimSuffix(p, "/")`: drop one trailing slash if present. -/
def trimTrailSlash (s : Str) : Str :=
  if s ≠ [] ∧ s.getLast? = some '/' then s.dropLast else s

/-- `strings.Split(p, "/")`: split on slashes, keeping empty pieces
(`Split("", "/") = [""]`). -/
def splitOnSlash : Str → List Str
  | [] => [[]]
  | '/' :: rest => [] :: splitOnSlash rest
  | c :: rest =>
    match splitOnSlash rest with
    | [] => [[c]]
    | s :: ss => (c :: s) :: ss

/-- `strings.Join(xs, "/")`. -/
def joinSlash : List Str → Str
  | [] => []
  | [s] => s
  | s :: ss => s ++ '/' :: joinSlash ss

/-- `cleanPath`: trim one leading and one trailing slash, split on `/`,
drop empty segments, rejoin with `/` and a leading `/`. -/
def cleanPath (p : Str) : Str :=
  '/' :: joinSlash (((splitOnSlash (trimTrailSlash (trimLeadSlash p)))).filter (· ≠ []))

/-- The three node/segment kinds (`static`, `param`, `catchAll`). -/
inductive NType where
  | static
  | param
  | catchAll
deriving DecidableEq, Repr

/-- `getSegmentType`: classify a segment by its first byte.  The Go code
reads `s[0]` unconditionally, so on an empty segment it panics with an
index-out-of-range — modelled by `none`. -/
def getSegmentType : Str → Option NType
  | [] => none
  | c :: _ =>
    some (if c = ':' then .param else if c = '*' then .catchAll else .static)

/-- The loop of `splitPath`: accumulate consecutive static segments into
`cur` (note: Go does `cur += seg`, with NO separator restored), flush
`cur` before each dynamic segment and at the end. -/
def splitLoop : List Str → Str → Option (List Str)
  | [], cur => some (if cur = [] then [] else [cur])
  | seg :: rest, cur =>
    match getSegmentType seg with
    | none => none
    | some .static => splitLoop rest (cur ++ seg)
    | some _ =>
      (fun tl => (if cur = [] then [seg] else [cur, seg]) ++ tl) <$> splitLoop rest []

/-- `splitPath`: trim the leading slash, split on `/`, merge runs of
static segments.  `none` = the Go code panicked inside
`getSegmentType` (an empty raw segment). -/
def splitPath (p : Str) : Option (List Str) :=
  splitLoop (splitOnSlash (trimLeadSlash p)) []

/-- `paramRegex`: `^[a-zA-Z_][a-zA-Z0-9_]*$`. -/
def isWordStart (c : Char) : Bool :=
  ('a' ≤ c ∧ c ≤ 'z') ∨ ('A' ≤ c ∧ c ≤ 'Z') ∨ c = '_'

def isWordChar (c : Char) : Bool :=
  isWordStart c ∨ ('0' ≤ c ∧ c ≤ '9')

def paramRegexMatch : Str → Bool
  | [] => false
  | c :: rest => isWordStart c && rest.all isWordChar

/-- The validator loop of `isValidPath`, over the segments produced by
`splitPath`: `i` is the current index, `n` the segment count, `prevTyp`
the previous segment's kind, `keys` the parameter segments seen. -/
def validLoop : List Str → Nat → Nat → Option NType → List Str → Option Bool
  | [], _, _, _, _ => some true
  | seg :: rest, i, n, prevTyp, keys =>
    if seg = [] then validLoop rest (i + 1) n prevTyp keys
    else
      match getSegmentType seg with
      | none => none
      | some typ =>
        if (match prevTyp with
            | some pt => pt ≠ NType.static ∧ typ ≠ NType.static
            | none => False : Bool) then some false
        else if typ = .catchAll ∧ i ≠ n - 1 then some false
        else if typ = .param ∧ seg ∈ keys then some false
        else if typ = .param ∧ ¬ paramRegexMatch (seg.drop 1) then some false
        else if typ = .catchAll ∧ seg ≠ ['*'] then some false
        else validLoop rest (i + 1) n (some typ) (if typ = .param then seg :: keys else keys)

/-- `isValidPath`: split the path and run the validator; `none` = panic
inside `splitPath`. -/
def isValidPath (p : Str) : Option Bool :=
  match splitPath p with
  | none => none
  | some segs => validLoop segs 0 segs.length none []

/-- `longestPrefix`: longest common starting run of two strings. -/
def longestCommon : Str → Str → Str
  | c1 :: r1, c2 :: r2 => if c1 = c2 then c1 :: longestCommon r1 r2 else []
  | _, _ => []

/-- The `endpoint` record stored on a terminal trie node: handler,
original (cleaned) pattern, ordered dynamic-segment names. -/
structure Endpoint (H : Type) where
  fn : H
  fullPath : Str
  pKeys : List Str
deriving DecidableEq, Repr

/-- A trie node.  `children` models Go's `map[byte]*node` as an
association list; `sparam` and `scatch` are the `special[param]` and
`special[catchAll]` slots (`special[static]` is never written). -/
inductive Node (H : Type) : Type where
  | mk (nType : NType) (pfx : Str) (children : List (Char × Node H))
       (sparam : Option (Node H)) (scatch : Option (Node H))
       (endpoint : Option (Endpoint H))
deriving Repr

namespace Node

variable {H : Type}

@[simp] def nType : Node H → NType | .mk t _ _ _ _ _ => t
@[simp] def pfx : Node H → Str | .mk _ p _ _ _ _ => p
@[simp] def children : Node H → List (Char × Node H) | .mk _ _ c _ _ _ => c
@[simp] def sparam : Node H → Option (Node H) | .mk _ _ _ s _ _ => s
@[simp] def scatch : Node H → Option (Node H) | .mk _ _ _ _ s _ => s
@[simp] def endpoint : Node H → Option (Endpoint H) | .mk _ _ _ _ _ e => e

end Node

/-- Lookup in the byte-keyed child map. -/
def chGet {H : Type} : List (Char × Node H) → Char → Option (Node H)
  | [], _ => none
  | (k, v) :: rest, c => if k = c then some v else chGet rest c

/-- Map assignment `m[k] = v` (replace if present, else append). -/
def chPut {H : Type} : List (Char × Node H) → Char → Node H → List (Char × Node H)
  | [], c, v => [(c, v)]
  | (k, w) :: rest, c, v => if k = c then (c, v) :: rest else (k, w) :: chPut rest c v

/-- `newNode(nType, prefix)`. -/
def newNode {H : Type} (t : NType) (p : Str) : Node H := .mk t p [] none none none

/-- `newTree()`: the empty root. -/
def newTree {H : Type} : Node H := .mk .static [] [] none none none

mutual

/-- The outer loop of `tree.insert` over the tokens of `splitPath`:
`acc` is the parameter-name list built so far, `fullP` the cleaned
pattern stored in the endpoint, `h` the handler.  The `fuel` counter is
decremented on every recursive call and only bounds the number of steps
(`insert` supplies ample fuel); `none` = panic or fuel exhaustion. -/
def insertToks {H : Type} : Nat → Node H → List Str → List Str → Str → H → Option (Node H)
  | 0, _, _, _, _, _ => none
  | _ + 1, n, [], acc, fullP, h =>
    some (.mk n.nType n.pfx n.children n.sparam n.scatch (some ⟨h, fullP, acc⟩))
  | fuel + 1, n, seg :: rest, acc, fullP, h =>
    match getSegmentType seg with
    | none => none
    | some .static => insertSeg fuel n seg rest acc fullP h
    | some .param =>
      let acc := acc ++ [seg.drop 1]
      let sub := match n.sparam with
        | none => newNode .param []
        | some s => s
      match insertToks fuel sub rest acc fullP h with
      | none => none
      | some sub => some (.mk n.nType n.pfx n.children (some sub) n.scatch n.endpoint)
    | some .catchAll =>
      let acc := acc ++ [['*']]
      let sub := match n.scatch with
        | none => newNode .catchAll []
        | some s => s
      match insertToks fuel sub rest acc fullP h with
      | none => none
      | some sub => some (.mk n.nType n.pfx n.children n.sparam (some sub) n.endpoint)

/-- The inner loop of `tree.insert` for a static token: descend the
byte-keyed children, splitting an edge where the new token diverges
inside an existing prefix. -/
def insertSeg {H : Type} : Nat → Node H → Str → List Str → List Str → Str → H → Option (Node H)
  | 0, _, _, _, _, _, _ => none
  | fuel + 1, n, [], rest, acc, fullP, h => insertToks fuel n rest acc fullP h
  | fuel + 1, n, c :: cr, rest, acc, fullP, h =>
    let search := c :: cr
    match chGet n.children c with
    | none =>
      match insertToks fuel (newNode .static search) rest acc fullP h with
      | none => none
      | some sub =>
        some (.mk n.nType n.pfx (chPut n.children c sub) n.sparam n.scatch n.endpoint)
    | some next =>
      let lcp := longestCommon search next.pfx
      if lcp.length < next.pfx.length then
        -- split the edge: `tl` keeps next's contents under the remainder
        match next.pfx.drop lcp.length with
        | [] => none  -- unreachable: the remainder is nonempty by the length test
        | r0 :: rr =>
          let tl : Node H := .mk .static (r0 :: rr) next.children next.sparam next.scatch next.endpoint
          let next₁ : Node H := .mk next.nType lcp (chPut [] r0 tl) none none none
          if lcp.length < search.length then
            match search.drop lcp.length with
            | [] => none  -- unreachable: search remainder nonempty
            | s0 :: ss =>
              match insertToks fuel (newNode .static (s0 :: ss)) rest acc fullP h with
              | none => none
              | some sub =>
                let next₂ : Node H :=
                  .mk next₁.nType next₁.pfx (chPut next₁.children s0 sub) none none none
                some (.mk n.nType n.pfx (chPut n.children c next₂) n.sparam n.scatch n.endpoint)
          else
            match insertToks fuel next₁ rest acc fullP h with
            | none => none
            | some sub =>
              some (.mk n.nType n.pfx (chPut n.children c sub) n.sparam n.scatch n.endpoint)
      else
        -- the whole child prefix matched: descend and keep consuming
        match insertSeg fuel next (search.drop lcp.length) rest acc fullP h with
        | none => none
        | some sub =>
          some (.mk n.nType n.pfx (chPut n.children c sub) n.sparam n.scatch n.endpoint)

end

/-- `tree.insert(p, fn)`: clean, validate (silently dropping invalid
patterns), then insert the tokens.  `none` = the Go code panicked. -/
def insert {H : Type} (t : Node H) (p : Str) (h : H) : Option (Node H) :=
  let pc := cleanPath p
  match splitPath pc with
  | none => none
  | some toks =>
    match validLoop toks 0 toks.length none [] with
    | none => none
    | some false => some t
    | some true => insertToks (2 * pc.length + 2 * toks.length + 8) t toks [] pc h

/-- Outcome of `tree.find`: a hit carries the endpoint and the
parameter map (an association list built in Go-map insertion order);
`panic` marks the out-of-range `params[i]` when the endpoint has more
keys than values were collected. -/
inductive FindOut (H : Type) where
  | panic
  | miss
  | hit (e : Endpoint H) (m : List (Str × Str))
deriving DecidableEq, Repr

/-- `strings.IndexByte(p, '/')`. -/
def idxSlash (p : Str) : Option Nat := p.findIdx? (· = '/')

/-- Assignment `m[k] = v` on the parameter map. -/
def pmPut : List (Str × Str) → Str → Str → List (Str × Str)
  | [], k, v => [(k, v)]
  | (k', v') :: rest, k, v => if k' = k then (k, v) :: rest else (k', v') :: pmPut rest k v

/-- The endpoint's `pKeys` zipped against the collected values:
`for i, k := range pKeys { pMap[k] = params[i] }`; `none` = the Go
index panic when `params` is shorter than `pKeys`. -/
def mapBuild : List Str → List Str → List (Str × Str) → Option (List (Str × Str))
  | [], _, m => some m
  | _ :: _, [], _ => none
  | k :: ks, v :: vs, m => mapBuild ks vs (pmPut m k v)

/-- The check after `tree.find`'s loop: return the current node's
endpoint (miss when absent) with the zipped parameter map. -/
def finish {H : Type} (cur : Node H) (params : List Str) : FindOut H :=
  match cur.endpoint with
  | none => .miss
  | some e =>
    match mapBuild e.pKeys params [] with
    | none => .panic
    | some m => .hit e m

/-- The loop of `tree.find`, with explicit fuel (each iteration consumes
at least one character of `p`, so `p.length + 1` is always enough).
State: `cur` node, deferred `prevLabel`, partial-edge offset `start`,
collected parameter values `params`. -/
def findLoop {H : Type} (fuel : Nat) (cur : Node H) (prevLabel : Option Char)
    (start : Nat) (params : List Str) (p : Str) : FindOut H :=
  match fuel with
  | 0 => .panic
  | fuel + 1 =>
    match p with
    | [] => finish cur params
    | c :: rest =>
      if c = '/' then findLoop fuel cur prevLabel start params rest
      else
        let label := prevLabel.getD c
        match chGet cur.children label with
        | some child =>
          let lcp := longestCommon (c :: rest) (child.pfx.drop start)
          if lcp.length = 0 then finish cur params
          else if lcp.length + start = child.pfx.length then
            findLoop fuel child none 0 params ((c :: rest).drop lcp.length)
          else
            findLoop fuel cur (some label) (start + lcp.length) params
              ((c :: rest).drop lcp.length)
        | none =>
          match cur.sparam with
          | some pn =>
            match idxSlash (c :: rest) with
            | none => findLoop fuel pn none 0 (params ++ [c :: rest]) []
            | some j =>
              findLoop fuel pn none 0 (params ++ [(c :: rest).take j])
                ((c :: rest).drop (j + 1))
          | none =>
            match cur.scatch with
            | some cn => findLoop fuel cn none 0 (params ++ [c :: rest]) []
            | none => .miss

/-- `tree.find(p)`. -/
def find {H : Type} (t : Node H) (p : Str) : FindOut H :=
  findLoop (p.length + 1) t none 0 [] p

/-- Append `"METHOD fullPath"` when node `c` is a terminal. -/
def capPush {H : Type} (m : Str) (c : Node H) (r : List Str) : List Str :=
  match c.endpoint with
  | none => r
  | some e => r ++ [m ++ ' ' :: e.fullPath]

mutual

/-- `recurseCapture`: collect `"METHOD fullPath"` strings from the
special slots (in array order) and then the children. -/
def recurseCapture {H : Type} (m : Str) : Node H → List Str → List Str
  | .mk _ _ cs sp sc _, r =>
    let r1 := match sp with
      | none => r
      | some c => recurseCapture m c (capPush m c r)
    let r2 := match sc with
      | none => r1
      | some c => recurseCapture m c (capPush m c r1)
    captureChildren m cs r2

def captureChildren {H : Type} (m : Str) : List (Char × Node H) → List Str → List Str
  | [], r => r
  | (_, c) :: rest, r => captureChildren m rest (recurseCapture m c (capPush m c r))

end

/-- `tree.captureRoutes(m)`. -/
def captureRoutes {H : Type} (m : Str) (t : Node H) : List Str :=
  recurseCapture m t []

/-! ### Middleware composition and the router surface

Handlers are modelled as functions from the request's parameter map
(the only request state the claims observe) to the trace of events the
request produces; a middleware maps a handler to a handler. -/

/-- Observable events of a request (or of middleware application). -/
inductive Ev where
  | enter (n : Nat)
  | exit (n : Nat)
  | handled
  | applied (n : Nat)
deriving DecidableEq, Repr

/-- The request-scoped parameter map, as the handler sees it. -/
abbrev PMap := List (Str × Str)

/-- `http.HandlerFunc`, observed through the trace it emits. -/
abbrev Handler := PMap → List Ev

/-- `Middleware = func(next http.HandlerFunc) http.HandlerFunc`. -/
abbrev Mw := Handler → Handler

/-- A middleware that emits `enter n` before and `exit n` after its
next handler (the shape used by the repository's own tests). -/
def mkMw (n : Nat) : Mw := fun next r => .enter n :: next r ++ [.exit n]

/-- A terminal handler that just records it ran. -/
def hBase : Handler := fun _ => [.handled]

/-- `chainMws`: the Go loop walks the middleware list from the last
index down to the first, each step capturing the previous handler in a
closure `func(w, r) { mw(next)(w, r) }`. -/
def chainMws (mws : List Mw) (fn : Handler) : Handler :=
  mws.reverse.foldl (fun handler mw => fun r => mw handler r) fn

/-- An effect-observing refinement of a middleware: applying it to a
next-handler yields the events its outer function body emits, plus the
wrapped handler.  (A Go `Middleware` is an arbitrary function; its
outer body may have side effects.) -/
abbrev MwE := Handler → List Ev × Handler

/-- `chainMws` under the effect-observing middleware type: the Go
closure `func(w, r) { mw(next)(w, r) }` evaluates `mw(next)` when the
closure runs, so the application's events are emitted on every
invocation; the registration-time loop itself applies nothing. -/
def chainMwsE (mws : List MwE) (fn : Handler) : Handler :=
  mws.reverse.foldl (fun handler mw => fun r => (mw handler).1 ++ (mw handler).2 r) fn

/-- A middleware whose outer function records that it was applied
before delegating to `next` unchanged. -/
def appMw (n : Nat) : MwE := fun next => ([.applied n], next)

/-- An effect-free effect-observing middleware built from `mkMw`. -/
def pureMwE (n : Nat) : MwE := fun next => ([], mkMw n next)

/-- `Router`: path prefix plus its own middleware list (the `app`
pointer is modelled separately where a claim needs the tree). -/
structure VRouter where
  path : Str
  mws : List Mw

/-- `App.Router(path, mws...)`: the root router. -/
def mkRouter (path : Str) (mws : List Mw) : VRouter := ⟨path, mws⟩

/-- `Router.Group(path, mws...)`: concatenated cleaned prefix, and a
middleware list holding ONLY the arguments passed to `Group`. -/
def VRouter.group (r : VRouter) (path : Str) (mws : List Mw) : VRouter :=
  ⟨cleanPath (r.path ++ path), mws⟩

/-- The route binding returned by `Router.Get` (and the other verbs):
full cleaned path and `append(r.mws, mws...)`. -/
structure RouteB where
  path : Str
  mws : List Mw

def VRouter.get (r : VRouter) (p : Str) (mws : List Mw) : RouteB :=
  ⟨cleanPath (r.path ++ p), r.mws ++ mws⟩

/-- `route.Handle(h)` against an explicit tree:
`r.t.insert(r.path, chainMws(r.mws, h))`. -/
def RouteB.handle (rb : RouteB) (t : Node Handler) (h : Handler) : Option (Node Handler) :=
  insert t rb.path (chainMws rb.mws h)

/-- Dispatch of a GET request through `App.internalHandler`, reduced to
the observable part: find the endpoint, attach the parameter map, run
the stored handler.  `none` = 404 (the `notFound` fallback). -/
def runReq (t : Node Handler) (q : Str) : Option (List Ev) :=
  match find t q with
  | .hit e m => some (e.fn m)
  | _ => none

/-- `Router.getTree` fetches `r.app.trees[m]` — a map whose VALUES are
`node` structs, not pointers — and returns the address of the local
copy `n`.  The copy shares the `children` map (Go maps are references)
but has its own `special` array and `endpoint` field, so writes that
`insert` makes to the root's special slots or endpoint land in the
copy and are lost; only mutations reachable through `children` are
seen by the dispatcher.  This definition returns the tree as the
stored (dispatcher-visible) root observes it after `insert` ran on the
copy. -/
def insertViaGetTree {H : Type} (stored : Node H) (p : Str) (h : H) : Option (Node H) :=
  match insert stored p h with
  | none => none
  | some t' =>
    some (.mk stored.nType stored.pfx t'.children stored.sparam stored.scatch stored.endpoint)

mutual

/-- All endpoint records stored anywhere in a (sub)tree: the node's
own, those under the special slots, and those under the children. -/
def endpointsOf {H : Type} : Node H → List (Endpoint H)
  | .mk _ _ cs sp sc e =>
    (match e with | none => [] | some e => [e])
      ++ (match sp with | none => [] | some c => endpointsOf c)
      ++ (match sc with | none => [] | some c => endpointsOf c)
      ++ endpointsOfChildren cs

def endpointsOfChildren {H : Type} : List (Char × Node H) → List (Endpoint H)
  | [] => []
  | (_, c) :: rest => endpointsOf c ++ endpointsOfChildren rest

end

/-- The dynamic-segment names of a token list, in order: `:name`
contributes `name` and `*` contributes `"*"` (exactly what `insert`
accumulates into the endpoint's `pKeys`). -/
def dynNames : List Str → List Str
  | [] => []
  | seg :: rest =>
    match getSegmentType seg with
    | some NType.param => seg.drop 1 :: dynNames rest
    | some NType.catchAll => ['*'] :: dynNames rest
    | _ => dynNames rest

/-- The parameter names a pattern declares (after cleaning and
splitting). -/
def patternKeys (p : Str) : List Str :=
  match splitPath (cleanPath p) with
  | none => []
  | some toks => dynNames toks

/-! ### Concrete fixtures used by the claims -/

/-- The tree obtained by registering `(GET, "/files/*")` with handler
id 0: one literal edge `files`, then a catch-all child holding the
endpoint. -/
def fTree : Node Nat :=
  .mk .static [] [('f',
    .mk .static "files".toList [] none
      (some (.mk .catchAll [] [] none none
        (some ⟨0, "/files/*".toList, ["*".toList]⟩))) none)] none none none

/-- Register a list of `(pattern, handler-id)` routes in order into one
GET tree (propagating a panic). -/
def regAll (l : List (Str × Nat)) : Option (Node Nat) :=
  l.foldl (fun t pr => t.bind (fun t => insert t pr.1 pr.2)) (some newTree)

/-- The route binding produced by the group chain
`Router("/api") → Group("/v1") → Group("/admin")` and `Get("/settings")`
with no middleware anywhere (so `chainMws` is the identity on the
handler and the tree stores the handler itself). -/
def rb3 : RouteB :=
  (((mkRouter "/api".toList []).group "/v1".toList []).group "/admin".toList []).get
    "/settings".toList []

/-- The endpoint stored for `/api/v1/admin/settings` (handler id 9). -/
def e3 : Endpoint Nat := ⟨9, "/api/v1/admin/settings".toList, []⟩

/-- The single merged literal token of the `/api/v1/admin/settings`
pattern: the splitter concatenates the static segments WITHOUT the
separators. -/
def s3 : Str := "apiv1adminsettings".toList

/-- The terminal node holding `e3`. -/
def t3leaf : Node Nat := .mk .static s3 [] none none (some e3)

/-- The tree after registering the group-chain route: a single edge
labelled `apiv1adminsettings` from the root. -/
def t3tree : Node Nat := .mk .static [] [('a', t3leaf)] none none none

/-! ### Helper lemmas -/

theorem lcp_append_left (a : Str) : ∀ b, longestCommon a b ++ a.drop (longestCommon a b).length = a := by
  induction a with
  | nil => intro b; cases b <;> rfl
  | cons c r ih =>
    intro b
    cases b with
    | nil => rfl
    | cons d s =>
      by_cases h : c = d
      · subst h
        simp [longestCommon, ih s]
      · simp [longestCommon, h]

theorem lcp_append_right (a : Str) : ∀ b, longestCommon a b ++ b.drop (longestCommon a b).length = b := by
  induction a with
  | nil => intro b; cases b <;> rfl
  | cons c r ih =>
    intro b
    cases b with
    | nil => rfl
    | cons d s =>
      by_cases h : c = d
      · subst h
        simp [longestCommon, ih s]
      · simp [longestCommon, h]

theorem lcp_cons_eq (c : Char) (r s : Str) :
    longestCommon (c :: r) (c :: s) = c :: longestCommon r s := by
  simp [longestCommon]

theorem lcp_cons_ne {c d : Char} (r s : Str) (h : c ≠ d) :
    longestCommon (c :: r) (d :: s) = [] := by
  simp [longestCommon, h]

theorem lcp_len_le_right (a b : Str) : (longestCommon a b).length ≤ b.length := by
  have h := congrArg List.length (lcp_append_right a b)
  simp only [List.length_append] at h
  omega

/-- Shifting a `filter (· ≠ '/') = b` goal past the longest common run,
when `b` contains no slash. -/
theorem filter_eq_shift (q b : Str) (hb : ∀ x ∈ b, x ≠ '/') :
    (q.filter (· ≠ '/') = b
      ↔ (q.drop (longestCommon q b).length).filter (· ≠ '/')
          = b.drop (longestCommon q b).length) := by
  have hfree : ∀ x ∈ longestCommon q b, x ≠ '/' := by
    intro x hx
    refine hb x ?_
    have : x ∈ longestCommon q b ++ b.drop (longestCommon q b).length := List.mem_append_left _ hx
    rwa [lcp_append_right q b] at this
  have hq1 : q.filter (· ≠ '/')
      = longestCommon q b ++ (q.drop (longestCommon q b).length).filter (· ≠ '/') := by
    conv_lhs => rw [← lcp_append_left q b]
    rw [List.filter_append]
    congr 1
    exact List.filter_eq_self.mpr (by intro a ha; simpa using hfree a ha)
  have hb1 : b = longestCommon q b ++ b.drop (longestCommon q b).length :=
    (lcp_append_right q b).symm
  constructor
  · intro h
    rw [hq1] at h
    conv_rhs at h => rw [hb1]
    exact List.append_cancel_left h
  · intro h
    rw [hq1, h]
    exact hb1.symm

theorem s3_no_slash : ∀ x ∈ s3, x ≠ '/' := by decide

theorem s3_length : s3.length = 18 := by decide

/-- Behaviour of the resolver loop at the terminal node of the
group-chain tree: it accepts exactly the all-slash remainders. -/
theorem findLeafAux : ∀ (fuel : Nat) (q : Str), q.length < fuel →
    (findLoop fuel t3leaf none 0 [] q = FindOut.hit e3 []
      ↔ q.filter (· ≠ '/') = []) := by
  intro fuel
  induction fuel with
  | zero => intro q h; omega
  | succ f ih =>
    intro q hq
    match q with
    | [] => exact iff_of_true rfl rfl
    | c :: rest =>
      by_cases hc : c = '/'
      · subst hc
        have h1 : findLoop (f + 1) t3leaf none 0 [] ('/' :: rest)
            = findLoop f t3leaf none 0 [] rest := by
          simp [findLoop]
        rw [h1, List.filter_cons_of_neg (by simp)]
        exact ih rest (by simpa using Nat.lt_of_succ_lt_succ hq)
      · have h1 : findLoop (f + 1) t3leaf none 0 [] (c :: rest) = FindOut.miss := by
          simp [findLoop, hc, t3leaf, chGet]
        rw [h1, List.filter_cons_of_pos (by simpa using hc)]
        exact iff_of_false (by simp) (by simp)

/-- Behaviour of the resolver loop on the group-chain tree, at any
mid-edge state: it reaches the terminal exactly when the non-slash
characters of the remaining request spell the rest of the edge. -/
theorem findEdgeAux : ∀ (fuel st : Nat) (q : Str), q.length < fuel → st < s3.length →
    (findLoop fuel t3tree (if st = 0 then none else some 'a') st [] q = FindOut.hit e3 []
      ↔ q.filter (· ≠ '/') = s3.drop st) := by
  intro fuel
  induction fuel with
  | zero => intro st q h; omega
  | succ f ih =>
    intro st q hq hst
    match q with
    | [] =>
      refine iff_of_false ?_ ?_
      · by_cases h0 : st = 0 <;> simp [h0, findLoop, finish, t3tree]
      · intro h
        have := congrArg List.length h
        simp [List.length_drop] at this
        omega
    | c :: rest =>
      by_cases hc : c = '/'
      · subst hc
        have h1 : findLoop (f + 1) t3tree (if st = 0 then none else some 'a') st []
              ('/' :: rest)
            = findLoop f t3tree (if st = 0 then none else some 'a') st [] rest := by
          simp [findLoop]
        rw [h1, List.filter_cons_of_neg (by simp)]
        exact ih st rest (by simpa using Nat.lt_of_succ_lt_succ hq) hst
      · -- the remaining edge is nonempty; name its head
        obtain ⟨d, s', hds⟩ : ∃ d s', s3.drop st = d :: s' := by
          cases hd : s3.drop st with
          | nil =>
            exfalso
            have := congrArg List.length hd
            simp [List.length_drop] at this
            omega
          | cons d s' => exact ⟨d, s', rfl⟩
        by_cases hfail : st = 0 ∧ c ≠ 'a'
        · -- no child under this byte, no specials: miss
          obtain ⟨hst0, hca⟩ := hfail
          have h1 : findLoop (f + 1) t3tree (if st = 0 then none else some 'a') st []
              (c :: rest) = FindOut.miss := by
            simp [findLoop, hc, hst0, t3tree, chGet, Ne.symm hca]
          rw [h1]
          refine iff_of_false (by simp) ?_
          intro h
          rw [hst0, List.drop_zero] at h
          rw [List.filter_cons_of_pos (by simpa using hc)] at h
          have hs3c : s3 = 'a' :: "piv1adminsettings".toList := by decide
          rw [hs3c] at h
          exact hca (List.cons_eq_cons.mp h).1
        · -- the child is found under label 'a'
          have hlab : (if st = 0 then none else some 'a').getD c = 'a' := by
            rcases Nat.eq_zero_or_pos st with h0 | h0
            · have hca : c = 'a' := by
                by_contra hne
                exact hfail ⟨h0, hne⟩
              simp [h0, hca]
            · simp [Nat.pos_iff_ne_zero.mp h0]
          have hg : chGet t3tree.children 'a' = some t3leaf := rfl
          by_cases hcd : c = d
          · -- heads agree: consume the common run
            have hlcp : longestCommon (c :: rest) (s3.drop st)
                = c :: longestCommon rest s' := by
              rw [hds, ← hcd, lcp_cons_eq]
            have hlen1 : 0 < (longestCommon (c :: rest) (s3.drop st)).length := by
              rw [hlcp]; simp
            have hshift := filter_eq_shift (c :: rest) (s3.drop st)
              (fun x hx => s3_no_slash x (List.mem_of_mem_drop hx))
            have hdd : (s3.drop st).drop (longestCommon (c :: rest) (s3.drop st)).length
                = s3.drop (st + (longestCommon (c :: rest) (s3.drop st)).length) := by
              rw [List.drop_drop, Nat.add_comm]
            have hlenle : (longestCommon (c :: rest) (s3.drop st)).length ≤ s3.length - st := by
              have := lcp_len_le_right (c :: rest) (s3.drop st)
              simpa [List.length_drop] using this
            by_cases hfull :
                (longestCommon (c :: rest) (s3.drop st)).length + st = s3.length
            · -- the edge is fully consumed: descend to the leaf
              have h1 : findLoop (f + 1) t3tree (if st = 0 then none else some 'a') st []
                    (c :: rest)
                  = findLoop f t3leaf none 0 []
                      ((c :: rest).drop (longestCommon (c :: rest) (s3.drop st)).length) := by
                simp only [findLoop]
                rw [if_neg hc, hlab, hg]
                simp only [t3leaf, Node.pfx]
                rw [if_neg (by omega), if_pos hfull]
              rw [h1, hshift, hdd]
              have hnil : s3.drop (st + (longestCommon (c :: rest) (s3.drop st)).length)
                  = [] := by
                apply List.drop_eq_nil_of_le
                omega
              rw [hnil]
              refine findLeafAux f _ ?_
              simp only [List.length_drop, List.length_cons]
              simp only [List.length_cons] at hq
              omega
            · -- partial edge: stay at the root with a larger offset
              have h1 : findLoop (f + 1) t3tree (if st = 0 then none else some 'a') st []
                    (c :: rest)
                  = findLoop f t3tree (some 'a')
                      (st + (longestCommon (c :: rest) (s3.drop st)).length) []
                      ((c :: rest).drop (longestCommon (c :: rest) (s3.drop st)).length) := by
                simp only [findLoop]
                rw [if_neg hc, hlab, hg]
                simp only [t3leaf, Node.pfx]
                rw [if_neg (by omega), if_neg hfull]
              have hstlt : st + (longestCommon (c :: rest) (s3.drop st)).length
                  < s3.length := by
                omega
              have h2 := ih (st + (longestCommon (c :: rest) (s3.drop st)).length)
                ((c :: rest).drop (longestCommon (c :: rest) (s3.drop st)).length)
                (by
                  simp only [List.length_drop, List.length_cons]
                  simp only [List.length_cons] at hq
                  omega)
                hstlt
              rw [if_neg (by omega)] at h2
              rw [h1, h2, hshift, hdd]
          · -- heads disagree: the literal attempt yields an empty run, miss
            have hlcp : longestCommon (c :: rest) (s3.drop st) = [] := by
              rw [hds]
              exact lcp_cons_ne rest s' hcd
            have h1 : findLoop (f + 1) t3tree (if st = 0 then none else some 'a') st []
                  (c :: rest) = FindOut.miss := by
              simp only [findLoop]
              rw [if_neg hc, hlab, hg]
              simp only [t3leaf, Node.pfx]
              rw [hlcp]
              simp [finish, t3tree]
            rw [h1]
            refine iff_of_false (by simp) ?_
            rw [List.filter_cons_of_pos (by simpa using hc), hds]
            intro h
            exact hcd (List.cons_eq_cons.mp h).1

@[simp] theorem endpointsOf_mk {H : Type} (ty : NType) (pf : Str)
    (cs : List (Char × Node H)) (sp sc : Option (Node H)) (e : Option (Endpoint H)) :
    endpointsOf (.mk ty pf cs sp sc e)
      = (match e with | none => [] | some e => [e])
        ++ (match sp with | none => [] | some c => endpointsOf c)
        ++ (match sc with | none => [] | some c => endpointsOf c)
        ++ endpointsOfChildren cs := by
  rw [endpointsOf.eq_def]

@[simp] theorem endpointsOfChildren_nil {H : Type} :
    endpointsOfChildren (H := H) [] = [] := by
  rw [endpointsOfChildren.eq_def]

@[simp] theorem endpointsOfChildren_cons {H : Type} (k : Char) (c : Node H)
    (rest : List (Char × Node H)) :
    endpointsOfChildren ((k, c) :: rest) = endpointsOf c ++ endpointsOfChildren rest := by
  rw [endpointsOfChildren.eq_def]

theorem pmPut_keys (k : Str) (v : Str) :
    ∀ (m0 : List (Str × Str)) (x : Str),
      (x ∈ (pmPut m0 k v).map Prod.fst ↔ x = k ∨ x ∈ m0.map Prod.fst) := by
  intro m0
  induction m0 with
  | nil => intro x; simp [pmPut]
  | cons kv rest ih =>
    intro x
    by_cases hk : kv.1 = k
    · simp only [pmPut, if_pos hk]
      simp [← hk]
    · simp only [pmPut, if_neg hk]
      simp [ih]
      tauto

theorem mapBuild_keys : ∀ (ks vs : List Str) (m0 m : List (Str × Str)),
    mapBuild ks vs m0 = some m →
    ∀ x, (x ∈ m.map Prod.fst ↔ x ∈ m0.map Prod.fst ∨ x ∈ ks) := by
  intro ks
  induction ks with
  | nil =>
    intro vs m0 m h x
    cases h
    simp
  | cons k ks ih =>
    intro vs m0 m h x
    cases vs with
    | nil => simp [mapBuild] at h
    | cons v vs =>
      have h' : mapBuild ks vs (pmPut m0 k v) = some m := h
      have := ih vs (pmPut m0 k v) m h' x
      rw [this, pmPut_keys]
      simp
      try tauto

theorem finish_hit_inv {H : Type} {cur : Node H} {params : List Str} {e : Endpoint H}
    {m : List (Str × Str)} (h : finish cur params = .hit e m) :
    e ∈ endpointsOf cur ∧ ∃ ps, mapBuild e.pKeys ps [] = some m := by
  cases cur with
  | mk ty pf cs sp sc ep =>
    cases ep with
    | none => simp [finish] at h
    | some e' =>
      simp only [finish, Node.endpoint] at h
      cases hmb : mapBuild e'.pKeys params [] with
      | none => rw [hmb] at h; simp at h
      | some m' =>
        rw [hmb] at h
        simp only [FindOut.hit.injEq] at h
        obtain ⟨he, hm⟩ := h
        subst he
        subst hm
        refine ⟨?_, params, hmb⟩
        simp

theorem chGet_endpoints_sub {H : Type} :
    ∀ (cs : List (Char × Node H)) (lbl : Char) (child : Node H),
      chGet cs lbl = some child →
      ∀ x ∈ endpointsOf child, x ∈ endpointsOfChildren cs := by
  intro cs
  induction cs with
  | nil => intro lbl child h; simp [chGet] at h
  | cons kv rest ih =>
    intro lbl child h x hx
    by_cases hk : kv.1 = lbl
    · simp only [chGet, if_pos hk] at h
      cases h
      obtain ⟨k, v⟩ := kv
      exact List.mem_append_left _ hx
    · simp only [chGet, if_neg hk] at h
      obtain ⟨k, v⟩ := kv
      exact List.mem_append_right _ (ih lbl child h x hx)

theorem mem_endpoints_of_child {H : Type} {n : Node H} {lbl : Char} {child : Node H}
    (hg : chGet n.children lbl = some child) {x : Endpoint H}
    (hx : x ∈ endpointsOf child) : x ∈ endpointsOf n := by
  cases n with
  | mk ty pf cs sp sc ep =>
    simp only [Node.children] at hg
    rw [endpointsOf_mk]
    exact List.mem_append_right _ (chGet_endpoints_sub cs lbl child hg x hx)

theorem mem_endpoints_of_sparam {H : Type} {n pn : Node H}
    (hg : n.sparam = some pn) {x : Endpoint H}
    (hx : x ∈ endpointsOf pn) : x ∈ endpointsOf n := by
  cases n with
  | mk ty pf cs sp sc ep =>
    simp only [Node.sparam] at hg
    subst hg
    rw [endpointsOf_mk]
    exact List.mem_append_left _ (List.mem_append_left _ (List.mem_append_right _ hx))

theorem mem_endpoints_of_scatch {H : Type} {n cn : Node H}
    (hg : n.scatch = some cn) {x : Endpoint H}
    (hx : x ∈ endpointsOf cn) : x ∈ endpointsOf n := by
  cases n with
  | mk ty pf cs sp sc ep =>
    simp only [Node.scatch] at hg
    subst hg
    rw [endpointsOf_mk]
    exact List.mem_append_left _ (List.mem_append_right _ hx)

/-- Inversion of a resolver hit: the returned endpoint is stored in the
tree, and the parameter map was zipped from its `pKeys` without an
index panic. -/
theorem findLoop_hit_inv {H : Type} : ∀ (fuel : Nat) {cur : Node H} {pl : Option Char}
    {st : Nat} {params : List Str} {q : Str} {e : Endpoint H} {m : List (Str × Str)},
    findLoop fuel cur pl st params q = .hit e m →
    e ∈ endpointsOf cur ∧ ∃ ps, mapBuild e.pKeys ps [] = some m := by
  intro fuel
  induction fuel with
  | zero => intro cur pl st params q e m h; simp [findLoop] at h
  | succ f ih =>
    intro cur pl st params q e m h
    match q with
    | [] =>
      simp only [findLoop] at h
      exact finish_hit_inv h
    | c :: rest =>
      simp only [findLoop] at h
      by_cases hc : c = '/'
      · rw [if_pos hc] at h
        exact ih h
      · rw [if_neg hc] at h
        cases hg : chGet cur.children (pl.getD c) with
        | some child =>
          simp only [hg] at h
          split at h
          · exact finish_hit_inv h
          · split at h
            · have := ih h
              exact ⟨mem_endpoints_of_child hg this.1, this.2⟩
            · exact ih h
        | none =>
          simp only [hg] at h
          cases hsp : cur.sparam with
          | some pn =>
            simp only [hsp] at h
            split at h <;>
              · have := ih h
                exact ⟨mem_endpoints_of_sparam hsp this.1, this.2⟩
          | none =>
            simp only [hsp] at h
            cases hsc : cur.scatch with
            | some cn =>
              simp only [hsc] at h
              have := ih h
              exact ⟨mem_endpoints_of_scatch hsc this.1, this.2⟩
            | none => simp only [hsc] at h; cases h

/-- The tree grown by `insert` from a fresh node holds exactly one
endpoint: the handler, the full pattern, and the accumulated dynamic
names followed by those of the remaining tokens. -/
theorem insertToks_fresh {H : Type} : ∀ (toks : List Str) (fuel : Nat) (ty : NType)
    (pf : Str) (acc : List Str) (fp : Str) (h : H) (t' : Node H),
    insertToks fuel (.mk ty pf [] none none none) toks acc fp h = some t' →
    endpointsOf t' = [⟨h, fp, acc ++ dynNames toks⟩] := by
  intro toks
  induction toks with
  | nil =>
    intro fuel ty pf acc fp h t' hins
    cases fuel with
    | zero => simp [insertToks] at hins
    | succ f =>
      simp only [insertToks] at hins
      cases hins
      simp [dynNames]
  | cons seg rest ih =>
    intro fuel ty pf acc fp h t' hins
    cases fuel with
    | zero => simp [insertToks] at hins
    | succ f =>
      simp only [insertToks] at hins
      cases hseg : getSegmentType seg with
      | none => rw [hseg] at hins; cases hins
      | some sty =>
        rw [hseg] at hins
        cases sty with
        | static =>
          -- the static token lands in a fresh child edge
          cases seg with
          | nil => simp [getSegmentType] at hseg
          | cons c cr =>
            cases f with
            | zero => simp [insertSeg] at hins
            | succ f' =>
              simp only [insertSeg, Node.children, chGet] at hins
              cases hsub : insertToks f' (newNode .static (c :: cr)) rest acc fp h with
              | none => rw [hsub] at hins; cases hins
              | some sub =>
                rw [hsub] at hins
                cases hins
                have := ih f' .static (c :: cr) acc fp h sub hsub
                simp only [chPut, dynNames, hseg]
                simp [this]
        | param =>
          simp only [Node.sparam] at hins
          cases hsub : insertToks f (newNode .param []) rest (acc ++ [seg.drop 1]) fp h with
          | none => rw [hsub] at hins; cases hins
          | some sub =>
            rw [hsub] at hins
            cases hins
            have := ih f .param [] (acc ++ [seg.drop 1]) fp h sub hsub
            simp only [dynNames, hseg]
            simp [this]
        | catchAll =>
          simp only [Node.scatch] at hins
          cases hsub : insertToks f (newNode .catchAll []) rest (acc ++ [['*']]) fp h with
          | none => rw [hsub] at hins; cases hins
          | some sub =>
            rw [hsub] at hins
            cases hins
            have := ih f .catchAll [] (acc ++ [['*']]) fp h sub hsub
            simp only [dynNames, hseg]
            simp [this]

/-! ### Theorems for the claims -/

/-- C1: the claim says a route registered on a sub-group runs the parent
router's middlewares, then the group's, then the per-route ones
(`P ++ C ++ R`).  Evaluating the code at the failing input — router
middlewares `[mkMw 1]`, group middlewares `[mkMw 2]`, route middlewares
`[mkMw 3]` — shows the binding's middleware list is only `C ++ R` and a
request never runs the parent's middleware: `Router.Group` stores only
its own arguments, and nothing at registration or dispatch re-adds the
parent list. -/
theorem C1_group_drops_parent_middleware :
    (((mkRouter "/api".toList [mkMw 1]).group "/g".toList [mkMw 2]).get "/x".toList
        [mkMw 3]).mws = [mkMw 2, mkMw 3]
  ∧ ((((mkRouter "/api".toList [mkMw 1]).group "/g".toList [mkMw 2]).get "/x".toList
        [mkMw 3]).handle newTree hBase).bind (fun t => runReq t "/api/g/x".toList)
      = some [Ev.enter 2, Ev.enter 3, Ev.handled, Ev.exit 3, Ev.exit 2]
  ∧ some [Ev.enter 2, Ev.enter 3, Ev.handled, Ev.exit 3, Ev.exit 2]
      ≠ some [Ev.enter 1, Ev.enter 2, Ev.enter 3, Ev.handled, Ev.exit 3, Ev.exit 2, Ev.exit 1] :=
  ⟨rfl, rfl, by decide⟩

/-- C2 counterexample: with `(GET, /a/b)`, `(GET, /a/:x)`, `(GET, /a/*)`
registered, the claim says a request to `/a/c/d` returns the endpoint
of `/a/*`; the code misses instead (resolution enters the parameter
child for segment `c` and never backtracks to the catch-all sibling). -/
theorem C2_catchall_request_misses :
    (regAll [("/a/b".toList, 1), ("/a/:x".toList, 2), ("/a/*".toList, 3)]).map
        (fun t => find t "/a/c/d".toList) = some FindOut.miss
  ∧ FindOut.miss
      ≠ FindOut.hit (⟨3, "/a/*".toList, ["*".toList]⟩ : Endpoint Nat)
          [("*".toList, "c/d".toList)] := by
  constructor
  · rfl
  · decide

/-- C2 amended: in every registration order of the three routes, `/a/b`
resolves to the literal endpoint and `/a/c` to the parameter endpoint
with `x = "c"`, but `/a/c/d` does not resolve to the catch-all — it
misses, because `find` greedily takes the parameter child and has no
backtracking. -/
theorem C2_priority_amended :
    ∀ l ∈ [[("/a/b".toList, 1), ("/a/:x".toList, 2), ("/a/*".toList, 3)],
           [("/a/b".toList, 1), ("/a/*".toList, 3), ("/a/:x".toList, 2)],
           [("/a/:x".toList, 2), ("/a/b".toList, 1), ("/a/*".toList, 3)],
           [("/a/:x".toList, 2), ("/a/*".toList, 3), ("/a/b".toList, 1)],
           [("/a/*".toList, 3), ("/a/b".toList, 1), ("/a/:x".toList, 2)],
           [("/a/*".toList, 3), ("/a/:x".toList, 2), ("/a/b".toList, 1)]],
      (regAll l).map
          (fun t => (find t "/a/b".toList, find t "/a/c".toList, find t "/a/c/d".toList))
        = some (FindOut.hit ⟨1, "/a/b".toList, []⟩ [],
                FindOut.hit ⟨2, "/a/:x".toList, ["x".toList]⟩ [("x".toList, "c".toList)],
                FindOut.miss) := by
  decide

/-- C2 amended, witness: the amended statement applied to the first
registration order. -/
theorem C2_priority_amended_witness :
    (regAll [("/a/b".toList, 1), ("/a/:x".toList, 2), ("/a/*".toList, 3)]).map
        (fun t => (find t "/a/b".toList, find t "/a/c".toList, find t "/a/c/d".toList))
      = some (FindOut.hit ⟨1, "/a/b".toList, []⟩ [],
              FindOut.hit ⟨2, "/a/:x".toList, ["x".toList]⟩ [("x".toList, "c".toList)],
              FindOut.miss) :=
  C2_priority_amended _ (by decide)

/-- C3 counterexample: the claim says no request path other than
`/api/v1/admin/settings` (up to the tolerated trailing slash) resolves
to the group-chain endpoint; but `/apiv1adminsettings` — with no
slashes at all — also resolves to it, because the insertion splitter
merged the literal segments without their separators and the resolver
skips any `/` byte wherever it appears. -/
theorem C3_other_path_resolves :
    find t3tree "/apiv1adminsettings".toList = FindOut.hit e3 []
  ∧ "/apiv1adminsettings".toList ≠ "/api/v1/admin/settings".toList
  ∧ "/apiv1adminsettings".toList ≠ "/api/v1/admin/settings/".toList :=
  ⟨rfl, by decide, by decide⟩

/-- C3 amended: registering `/settings` on the group chain
`("/api") → ("/v1") → ("/admin")` produces a single-edge tree, and a
request path resolves to its endpoint exactly when the path's
non-slash characters spell `apiv1adminsettings` — i.e.
`/api/v1/admin/settings` with `/` characters inserted or deleted
arbitrarily, and nothing else. -/
theorem C3_group_chain_resolution :
    insert newTree rb3.path (9 : Nat) = some t3tree
  ∧ rb3.path = "/api/v1/admin/settings".toList
  ∧ ∀ q : Str, find t3tree q = FindOut.hit e3 [] ↔ q.filter (· ≠ '/') = s3 := by
  refine ⟨rfl, rfl, fun q => ?_⟩
  have h := findEdgeAux (q.length + 1) 0 q (by omega) (by rw [s3_length]; omega)
  rw [if_pos rfl] at h
  simpa [find, List.drop_zero] using h

/-- C3 amended, witness: the canonical request path resolves. -/
theorem C3_group_chain_resolution_witness :
    find t3tree "/api/v1/admin/settings".toList = FindOut.hit e3 [] :=
  (C3_group_chain_resolution.2.2 _).mpr (by decide)

/-- C4 counterexample: the claim says invoking the handler returned by
`chainMws` performs no further applications of the middleware functions
themselves.  With a middleware whose outer function body records its
application, the per-request trace contains the application event: the
closure built at registration evaluates `mw(next)` on every call. -/
theorem C4_application_happens_per_request :
    chainMwsE [appMw 0] hBase [] = [Ev.applied 0, Ev.handled]
  ∧ Ev.applied 0 ∈ chainMwsE [appMw 0] hBase [] := by
  constructor
  · rfl
  · decide

/-- C4 amended: `chainMws` builds the nest of closures once at
registration (the trie stores `foldr` of the wrappers, and the loop
itself applies no middleware), but each middleware function is applied
to its next-handler afresh on every invocation inside those closures;
when every middleware's application is effect-free this coincides with
composing once at registration. -/
theorem C4_composition_per_invocation :
    (∀ (mws : List MwE) (fn : Handler),
        chainMwsE mws fn
          = mws.foldr (fun mw k => fun r => (mw k).1 ++ (mw k).2 r) fn)
  ∧ (∀ (mws : List MwE) (fn : Handler),
        (∀ mw ∈ mws, ∀ next, (mw next).1 = ([] : List Ev)) →
        ∀ r, chainMwsE mws fn r = (mws.foldr (fun mw k => (mw k).2) fn) r)
  ∧ chainMwsE [appMw 0] hBase [] = [Ev.applied 0, Ev.handled] := by
  have hfold : ∀ (mws : List MwE) (fn : Handler),
      chainMwsE mws fn = mws.foldr (fun mw k => fun r => (mw k).1 ++ (mw k).2 r) fn :=
    fun mws fn => List.foldl_reverse mws _ fn
  refine ⟨hfold, ?_, rfl⟩
  intro mws fn
  induction mws with
  | nil => intro _ _; rfl
  | cons mw ms ih =>
    intro hpure r
    have hms : chainMwsE ms fn = (ms.foldr (fun mw k => (mw k).2) fn) := by
      funext r'
      exact ih (fun m hm => hpure m (List.mem_cons_of_mem _ hm)) r'
    calc chainMwsE (mw :: ms) fn r
        = (mw (chainMwsE ms fn)).1 ++ (mw (chainMwsE ms fn)).2 r := by
          rw [hfold (mw :: ms) fn]
          rw [List.foldr_cons, ← hfold ms fn]
      _ = (mw (chainMwsE ms fn)).2 r := by
          rw [hpure mw (List.mem_cons_self _ _)]
          rfl
      _ = ((mw :: ms).foldr (fun mw k => (mw k).2) fn) r := by
          rw [hms]
          rfl

/-- C4 amended, witness: with the single effect-free middleware
`pureMwE 1`, invocation agrees with the once-composed chain. -/
theorem C4_composition_per_invocation_witness :
    chainMwsE [pureMwE 1] hBase []
      = (([pureMwE 1] : List MwE).foldr (fun mw k => (mw k).2) hBase) [] :=
  C4_composition_per_invocation.2.1 [pureMwE 1] hBase
    (by
      intro mw hmw next
      rw [List.mem_singleton.mp hmw]
      rfl)
    []

/-- C5 counterexample: the claim says the insertion splitter keeps the
`/` separators inside a merged literal token, i.e.
`splitPath("/foo/bar") = ["foo/bar"]`; the code concatenates the
segments with `cur += seg`, dropping the separator. -/
theorem C5_separator_not_kept :
    splitPath "/foo/bar".toList ≠ some ["foo/bar".toList] := by
  decide

/-- C5 amended: the splitter merges every maximal run of consecutive
literal segments into a single token WITHOUT the `/` separators
(`/foo/bar` becomes the one token `foobar`), while dynamic segments
stay separate: `/foo/:id/bar` becomes `foo`, `:id`, `bar`. -/
theorem C5_split_merges_literals :
    splitPath "/foo/bar".toList = some ["foobar".toList]
  ∧ splitPath "/foo/:id/bar".toList
      = some ["foo".toList, ":id".toList, "bar".toList] := by
  constructor
  · rfl
  · rfl

/-- C6: whenever a request hits a route registered from a single
pattern, the parameter map's key set is exactly the pattern's declared
dynamic names (the endpoint's `pKeys`, which equal the names collected
from the pattern's tokens, a catch-all contributing `"*"`); and the
concrete scenario: registering `(GET, "/files/*")` and resolving
`/files/a/b/c` yields the map with the single entry
`"*" ↦ "a/b/c"` — the remainder with its interior slashes and without
the leading one. -/
theorem C6_param_extraction :
    (∀ {H : Type} (p : Str) (h : H) (t : Node H) (q : Str) (e : Endpoint H)
        (m : List (Str × Str)),
        insert newTree p h = some t → find t q = FindOut.hit e m →
        ((∀ k, k ∈ m.map Prod.fst ↔ k ∈ e.pKeys) ∧ e.pKeys = patternKeys p))
  ∧ (insert newTree "/files/*".toList (0 : Nat)).map (fun t => find t "/files/a/b/c".toList)
      = some (FindOut.hit ⟨0, "/files/*".toList, ["*".toList]⟩
          [("*".toList, "a/b/c".toList)]) := by
  constructor
  · intro H p h t q e m hins hfind
    simp only [insert] at hins
    simp only [find] at hfind
    cases hsp : splitPath (cleanPath p) with
    | none =>
      simp only [hsp] at hins
      cases hins
    | some toks =>
      simp only [hsp] at hins
      cases hvl : validLoop toks 0 toks.length none [] with
      | none =>
        simp only [hvl] at hins
        cases hins
      | some b =>
        simp only [hvl] at hins
        cases b with
        | false =>
          cases hins
          have hinv := findLoop_hit_inv _ hfind
          obtain ⟨h1, -⟩ := hinv
          simp [newTree] at h1
        | true =>
          have hfresh := insertToks_fresh toks _ .static [] [] (cleanPath p) h t hins
          have hinv := findLoop_hit_inv _ hfind
          obtain ⟨h1, ps, hmb⟩ := hinv
          rw [hfresh] at h1
          have he : e = ⟨h, cleanPath p, [] ++ dynNames toks⟩ := List.mem_singleton.mp h1
          have hek : e.pKeys = dynNames toks := by rw [he]; simp
          constructor
          · intro k
            have := mapBuild_keys e.pKeys ps [] m hmb k
            simpa using this
          · rw [hek]
            simp only [patternKeys, hsp]
  · rfl

/-- C6 witness: the universal statement applied to the concrete
catch-all scenario. -/
theorem C6_param_extraction_witness :
    (∀ k, k ∈ ([(("*".toList : Str), ("a/b/c".toList : Str))].map Prod.fst)
        ↔ k ∈ [("*".toList : Str)])
  ∧ [("*".toList : Str)] = patternKeys "/files/*".toList :=
  C6_param_extraction.1 "/files/*".toList (0 : Nat) fTree "/files/a/b/c".toList
    ⟨0, "/files/*".toList, ["*".toList]⟩ [("*".toList, "a/b/c".toList)] rfl rfl

/-- C7: composing `[m1, …, mN]` around `h` produces the onion
`m1(m2(…mN(h)))` — `chainMws` equals the right fold of application —
and for the instrumented `[mkMw 1, mkMw 2]` around a recording handler
the observed sequence is enter 1, enter 2, handler, exit 2, exit 1. -/
theorem C7_onion_order :
    (∀ (mws : List Mw) (fn : Handler), chainMws mws fn = mws.foldr (fun mw h => mw h) fn)
  ∧ chainMws [mkMw 1, mkMw 2] hBase []
      = [Ev.enter 1, Ev.enter 2, Ev.handled, Ev.exit 2, Ev.exit 1] :=
  ⟨fun mws fn => List.foldl_reverse mws _ fn, rfl⟩

/-- C8: each of the seven malformed patterns is silently dropped at
registration — `insert` returns with the tree unchanged (for EVERY
starting tree), the route table of the attempted registration on a
fresh tree stays empty, and a request for the pattern's own path
misses. -/
theorem C8_invalid_patterns_dropped :
    (∀ (t : Node Nat) (h : Nat),
        insert t "/users/:123id".toList h = some t
      ∧ insert t "/users/:user@id".toList h = some t
      ∧ insert t "/users/:".toList h = some t
      ∧ insert t "/users/:id/:name".toList h = some t
      ∧ insert t "/users/*/posts".toList h = some t
      ∧ insert t "/files/*filename".toList h = some t
      ∧ insert t "/files/*/*".toList h = some t)
  ∧ captureRoutes "GET".toList (newTree (H := Nat)) = []
  ∧ find (newTree (H := Nat)) "/users/:123id".toList = FindOut.miss
  ∧ find (newTree (H := Nat)) "/users/:user@id".toList = FindOut.miss
  ∧ find (newTree (H := Nat)) "/users/:".toList = FindOut.miss
  ∧ find (newTree (H := Nat)) "/users/:id/:name".toList = FindOut.miss
  ∧ find (newTree (H := Nat)) "/users/*/posts".toList = FindOut.miss
  ∧ find (newTree (H := Nat)) "/files/*filename".toList = FindOut.miss
  ∧ find (newTree (H := Nat)) "/files/*/*".toList = FindOut.miss :=
  ⟨fun _ _ => ⟨rfl, rfl, rfl, rfl, rfl, rfl, rfl⟩,
   rfl, rfl, rfl, rfl, rfl, rfl, rfl, rfl⟩

/-- C9: the claim says every validator-accepted registration is visible
to dispatch, including patterns whose first segment is a parameter.
Evaluating the code at the failing input: registering `/:id` goes
through `getTree`, which returns a pointer to a COPY of the by-value
map entry; `insert`'s write of the root's `special[param]` slot lands
in the copy, so the stored tree is unchanged and a request to `/foo`
404s — although the same `insert` run directly on the stored root
would make `/foo` resolve with `id = "foo"`. -/
theorem C9_root_param_registration_lost :
    (∀ h : Nat, insertViaGetTree newTree "/:id".toList h = some newTree)
  ∧ find (newTree (H := Nat)) "/foo".toList = FindOut.miss
  ∧ (∀ h : Nat,
      (insert newTree "/:id".toList h).map (fun t => find t "/foo".toList)
        = some (FindOut.hit ⟨h, "/:id".toList, ["id".toList]⟩
            [("id".toList, "foo".toList)])) :=
  ⟨fun _ => rfl, rfl, fun _ => rfl⟩

/-- C10: the claim says `insert` is total and `getSegmentType` never
sees an empty segment.  Evaluating the code at the failing input: the
pattern `/` (which `cleanPath` also produces from `//`) makes
`splitPath` call `getSegmentType` on the empty segment that
`strings.Split("", "/")` yields, and `s[0]` on the empty string is an
index-out-of-range panic — so `insert` aborts on every tree. -/
theorem C10_insert_root_pattern_panics :
    getSegmentType ([] : Str) = none
  ∧ cleanPath "//".toList = "/".toList
  ∧ splitPath (cleanPath "/".toList) = none
  ∧ (∀ (t : Node Nat) (h : Nat), insert t "/".toList h = none)
  ∧ (∀ (t : Node Nat) (h : Nat), insert t "//".toList h = none) :=
  ⟨rfl, rfl, rfl, fun _ _ => rfl, fun _ _ => rfl⟩

end Velocity
